import Mathlib

/-!
Verification of the Group_K Okavango data pipeline.

The development shallowly embeds the data-reconciliation core of the
repository: the on-disk cache fetcher (`download_project_data`), the
tabular normalizer (`_load_and_clean_dataframes`, modelled per-table as
`normalize`), and the merge engine (`merge_geospatial_layers`), for both
variants present in the repository (`app/okavango_app.py`, namespace
`OkavangoApp`, and `app/okavango.py`, namespace `Okavango`).

Tables (pandas DataFrames) are modelled as an ordered header of column
names plus a list of rows of cells; cells are null, integer, or string
(the fragments of pandas the pipeline relies on).  Pandas key matching
treats NaN keys as equal on both sides of a merge, so `Cell.null` is an
ordinary equatable value here.
-/

/-- A cell of a table: missing (NaN), an integer, or a string. -/
inductive Cell where
  | null : Cell
  | int : Int → Cell
  | str : String → Cell
deriving DecidableEq, Repr

/-- A table: an ordered header plus rows of cells (one cell per column). -/
structure DF where
  cols : List String
  rows : List (List Cell)
deriving DecidableEq, Repr

/-! ## String utilities (Python `in`, `.lower()`, `.endswith`) -/

/-- `matchAt needle hay`: `needle` occurs at the head of `hay`. -/
def matchAt : List Char → List Char → Bool
  | [], _ => true
  | _ :: _, [] => false
  | a :: l, b :: m => decide (a = b) && matchAt l m

/-- `hasSub needle hay`: `needle` occurs somewhere in `hay` (Python `in`). -/
def hasSub : List Char → List Char → Bool
  | n, [] => n.isEmpty
  | n, c :: t => matchAt n (c :: t) || hasSub n t

/-- Python `s.lower()`, as a character list. -/
def lowerOf (s : String) : List Char := s.toList.map Char.toLower

/-- Python `s.endswith(suf)`. -/
def endsWithStr (s suf : String) : Bool :=
  matchAt suf.toList.reverse s.toList.reverse

/-- Boolean membership of a string in a list (via decidable equality). -/
def memb (c : String) (l : List String) : Bool :=
  l.any (fun x => decide (x = c))

/-- Boolean membership of a cell in a list (via decidable equality). -/
def memv (c : Cell) (l : List Cell) : Bool :=
  l.any (fun x => decide (x = c))

/-! ## Basic table operations (the pandas fragment used by the code) -/

/-- pandas `df.empty`: true when either axis has length zero. -/
def DF.empty (df : DF) : Bool := df.rows.isEmpty || df.cols.isEmpty

/-- Index of the first column with the given name. -/
def DF.colIdx (df : DF) (name : String) : Option Nat :=
  df.cols.findIdx? (fun c => decide (c = name))

/-- The values of the named column (first occurrence), top to bottom. -/
def colVals (df : DF) (name : String) : Option (List Cell) :=
  (df.colIdx name).map (fun i => df.rows.map (fun r => r.getD i Cell.null))

/-- pandas `df.drop(columns=[name])`: remove every column with that label. -/
def dropCol (df : DF) (name : String) : DF :=
  { cols := df.cols.filter (fun c => !(decide (c = name))),
    rows := df.rows.map (fun r =>
      ((df.cols.zip r).filter (fun p => !(decide (p.1 = name)))).map (fun p => p.2)) }

/-- pandas `df.rename(columns={old: nw})`. -/
def renameCol (df : DF) (old nw : String) : DF :=
  { df with cols := df.cols.map (fun c => if decide (c = old) then nw else c) }

/-- pandas `df.dropna(subset=[name])`: drop rows with a null in that column.
(The column is always present at the one call site; a missing column is
modelled as the identity.) -/
def dropnaOn (df : DF) (name : String) : DF :=
  match df.colIdx name with
  | none => df
  | some i => { df with rows := df.rows.filter (fun r => !(decide (r.getD i Cell.null = Cell.null))) }

/-- pandas `df[names]`: project to the listed columns, in that order. -/
def selectCols (df : DF) (names : List String) : DF :=
  { cols := names,
    rows := df.rows.map (fun r => names.map (fun n =>
      match df.colIdx n with
      | some i => r.getD i Cell.null
      | none => Cell.null)) }

/-! ## Descending sort and keep-first deduplication

`sort_values("Year", ascending=False)` followed by
`drop_duplicates(subset=["Code"])` (okavango_app.py line 98).  pandas'
default sort (`kind='quicksort'`) is documented as not stable, so the
program fixes no order among rows with equal `Year`: its contract is only
that the output is some descending-sorted permutation of the input.  That
contract is captured by the relation `IsSortValuesDesc`; the function
`insSortDesc` below is one deterministic (stable) realization of it, used
to give `normalize` an executable instance.  Statements about what the
program guarantees quantify over every `IsSortValuesDesc` output. -/

/-- The integer sort key of a cell (the `Year` values the pipeline sorts by
are integers; non-integers never occur at the call site and default to 0). -/
def cellInt : Cell → Int
  | Cell.int n => n
  | _ => 0

/-- The contract of `sort_values(ascending=False)`: the output is a
permutation of the input that is sorted by descending key.  Every run of
the unstable sort satisfies this, and nothing more is guaranteed. -/
def IsSortValuesDesc {α : Type} (key : α → Int) (l sorted : List α) : Prop :=
  l.Perm sorted ∧ List.Pairwise (fun a b => key b ≤ key a) sorted

/-- Insert into a descending-sorted list, before the first element of
smaller-or-equal key.  This makes `insSortDesc` one fixed realization of
`IsSortValuesDesc` (a stable one); the program itself does not promise
this tie behavior. -/
def insertDesc (key : α → Int) (x : α) : List α → List α
  | [] => [x]
  | y :: ys => if key y ≤ key x then x :: y :: ys else y :: insertDesc key x ys

/-- Stable descending insertion sort by an integer key. -/
def insSortDesc (key : α → Int) : List α → List α
  | [] => []
  | x :: xs => insertDesc key x (insSortDesc key xs)

/-- pandas `drop_duplicates(subset=[ci-th column])`: keep the first row per
key value. -/
def dedupAux (ci : Nat) (seen : List Cell) : List (List Cell) → List (List Cell)
  | [] => []
  | r :: rs =>
      if memv (r.getD ci Cell.null) seen then dedupAux ci seen rs
      else r :: dedupAux ci (r.getD ci Cell.null :: seen) rs

/-- `sort_values("Year", ascending=False).drop_duplicates(subset=["Code"])`
at row level: `ci` is the index of `Code`, `yi` the index of `Year`. -/
def latestPerCode (ci yi : Nat) (rs : List (List Cell)) : List (List Cell) :=
  dedupAux ci [] (insSortDesc (fun r => cellInt (r.getD yi Cell.null)) rs)

/-- The greatest key value occurring in a list, if any. -/
def maxKey (key : α → Int) : List α → Option Int
  | [] => none
  | x :: xs =>
      match maxKey key xs with
      | none => some (key x)
      | some m => some (max (key x) m)

/-- Specification-side description of most-recent-wins: among the rows whose
`ci`-th cell equals `v`, the first (in input order) of those attaining the
maximum `yi`-key, if the group is non-empty. -/
def latestOf (ci yi : Nat) (v : Cell) (rs : List (List Cell)) : Option (List Cell) :=
  let grp := rs.filter (fun r => decide (r.getD ci Cell.null = v))
  match maxKey (fun r => cellInt (r.getD yi Cell.null)) grp with
  | none => none
  | some m => grp.find? (fun r => decide (cellInt (r.getD yi Cell.null) = m))

namespace OkavangoApp

/-! ## Embedding of `src/app/okavango_app.py` -/

/-- Keyword test of the first scan (okavango_app.py lines 74-78):
the lowercased header contains `code` or `iso`. -/
def kwCode (c : String) : Bool :=
  hasSub "code".toList (lowerOf c) || hasSub "iso".toList (lowerOf c)

/-- Keyword test of the fallback scan (lines 81-85): the lowercased header
contains `entity`, `country` or `name`. -/
def kwName (c : String) : Bool :=
  hasSub "entity".toList (lowerOf c) || hasSub "country".toList (lowerOf c) ||
    hasSub "name".toList (lowerOf c)

/-- Country-code column inference (lines 73-85): first header matching the
code/iso scan; only when none matches, first header matching the fallback
scan, in header order. -/
def findGeoCol (cols : List String) : Option String :=
  match cols.find? kwCode with
  | some c => some c
  | none => cols.find? kwName

/-- Lines 90-93: rename the inferred column to the canonical `Code`,
first dropping a pre-existing `Code` column; no-op when the inferred
column already is `Code`. -/
def toCodeCol (df : DF) (geoCol : String) : DF :=
  if decide (geoCol = "Code") then df
  else renameCol (if memb "Code" df.cols then dropCol df "Code" else df) geoCol "Code"

/-- Lines 97-98: most-recent-wins deduplication by `Code`, applied only
when a `Year` column exists. -/
def dedupYear (df2 : DF) : DF :=
  if memb "Year" df2.cols then
    match df2.colIdx "Code", df2.colIdx "Year" with
    | some ci, some yi => { df2 with rows := latestPerCode ci yi df2.rows }
    | _, _ => df2
  else df2

/-- Lines 100-105: the projection header — `Code` plus every column that is
not one of the structural columns. -/
def keepCols (df3 : DF) : List String :=
  "Code" :: df3.cols.filter (fun c => !(memb c ["Code", "Year", "Entity", "Country"]))

/-- Per-table body of `_load_and_clean_dataframes` (lines 73-106): infer the
code column (`none` means the source is skipped), rename it to `Code`
(dropping a pre-existing `Code` column first), drop null-`Code` rows,
keep the most recent row per `Code` when a `Year` column exists, and
project to `Code` plus the metric columns. -/
def normalize (df : DF) : Option DF :=
  match findGeoCol df.cols with
  | none => none
  | some geoCol =>
      some (selectCols (dedupYear (dropnaOn (toCodeCol df geoCol) "Code"))
        (keepCols (dedupYear (dropnaOn (toCodeCol df geoCol) "Code"))))

/-! ### Merge engine (lines 108-125) -/

/-- pandas left merge with `left_on`/`right_on` and suffixes `("", "_drop")`:
every left row survives; matching right rows (key equality, with NaN keys
matching as pandas does) are appended, a missing match contributing nulls;
right columns colliding with a left column name get the `_drop` suffix.
A missing join column is a pandas `KeyError`. -/
def mergeLeft (l r : DF) (lOn rOn : String) : Except String DF :=
  match l.colIdx lOn, r.colIdx rOn with
  | some li, some ri =>
      .ok { cols := l.cols ++ r.cols.map (fun c => if memb c l.cols then c ++ "_drop" else c),
            rows := l.rows.flatMap (fun lr =>
              let ms := r.rows.filter (fun rr => decide (rr.getD ri Cell.null = lr.getD li Cell.null))
              if ms.isEmpty then [lr ++ r.cols.map (fun _ => Cell.null)]
              else ms.map (fun rr => lr ++ rr)) }
  | _, _ => .error "KeyError"

/-- Line 123: drop every column whose name ends with `_drop`. -/
def dropSuffixCols (df : DF) : DF :=
  { cols := df.cols.filter (fun c => !(endsWithStr c "_drop")),
    rows := df.rows.map (fun r =>
      ((df.cols.zip r).filter (fun p => !(endsWithStr p.1 "_drop"))).map (fun p => p.2)) }

/-- One iteration of the merge loop (lines 115-123): skip an empty indicator
table, otherwise left-join and drop `_drop`-suffixed columns. -/
def mergeStep (mapCode : String) (acc df : DF) : Except String DF :=
  if df.empty then .ok acc
  else (mergeLeft acc df mapCode "Code").map dropSuffixCols

/-- Line 113: `"ADM0_A3" if "ADM0_A3" in merged_gdf.columns else "ISO_A3"`. -/
def mapCodeOf (g : DF) : String :=
  if memb "ADM0_A3" g.cols then "ADM0_A3" else "ISO_A3"

/-- `merge_geospatial_layers` (lines 108-125): when no geometry was loaded
the method returns without setting `merged_data` (result `none`); otherwise
it folds the merge step over the indicator tables in order. -/
def merge_geospatial_layers (geo : Option DF) (dfs : List DF) : Except String (Option DF) :=
  match geo with
  | none => .ok none
  | some g => (dfs.foldlM (mergeStep (mapCodeOf g)) g).map some

/-- Row count of a merge result, when one was produced. -/
def mergedRowCount : Except String (Option DF) → Option Nat
  | .ok (some m) => some m.rows.length
  | _ => none

/-- Columns of a merge result, when one was produced. -/
def mergedCols : Except String (Option DF) → List String
  | .ok (some m) => m.cols
  | _ => []

/-! ### Fetcher (lines 36-59) -/

/-- The `DataSource` pydantic model (okavango_app.py lines 16-19). -/
structure DataSource where
  url : String
  filename : Option String
  is_shapefile : Bool
deriving DecidableEq, Repr

/-- The observable download state: which target artifacts exist under the
cache directory, and how many network requests have been made. -/
structure FetchState where
  files : List String
  netCalls : Nat
deriving DecidableEq, Repr

/-- The artifact path a source is cached under (the fixed zip name for the
shapefile, the declared filename otherwise). -/
def targetName (s : DataSource) : Option String :=
  if s.is_shapefile then some "ne_110m_admin_0_countries.zip" else s.filename

/-- One iteration of `download_project_data` (lines 37-59): skip when the
target exists, otherwise perform one network request and write the target.
Transfers are modelled on their success path (`raise_for_status` passing);
a CSV source without a filename is Python's `TypeError` in `os.path.join`.
Shapefile extraction into the subdirectory is not tracked beyond the
archive itself. -/
def downloadOne (st : FetchState) (s : DataSource) : Except String FetchState :=
  if s.is_shapefile then
    if memb "ne_110m_admin_0_countries.zip" st.files then .ok st
    else .ok { files := "ne_110m_admin_0_countries.zip" :: st.files, netCalls := st.netCalls + 1 }
  else
    match s.filename with
    | none => .error "TypeError"
    | some f =>
        if memb f st.files then .ok st
        else .ok { files := f :: st.files, netCalls := st.netCalls + 1 }

/-- `download_project_data` (lines 36-59): fetch every source in order. -/
def download_project_data (sources : List DataSource) (st : FetchState) : Except String FetchState :=
  sources.foldlM downloadOne st

/-- Modelled from the spec: section 4.2 of the specification describes the
fallback scan as trying `entity`, `country`, `name` "in that priority
order"; this definition follows those words (keyword-priority selection),
for comparison with `findGeoCol` above. -/
def findGeoColSpec (cols : List String) : Option String :=
  match cols.find? kwCode with
  | some c => some c
  | none =>
      match cols.find? (fun c => hasSub "entity".toList (lowerOf c)) with
      | some c => some c
      | none =>
          match cols.find? (fun c => hasSub "country".toList (lowerOf c)) with
          | some c => some c
          | none => cols.find? (fun c => hasSub "name".toList (lowerOf c))

/-- Decidable form of the indicator-table key invariant: the table has a
`Code` column and its values are pairwise distinct. -/
def goodKey (df : DF) : Bool :=
  match df.colIdx "Code" with
  | some i => decide ((df.rows.map (fun r => r.getD i Cell.null)).Nodup)
  | none => false

end OkavangoApp

namespace Okavango

/-! ## Embedding of `src/app/okavango.py` -/

/-- First component of Python `filename.split('.')`. -/
def stemOf (s : String) : String := (s.splitOn ".").headD ""

/-- `merge_geospatial_layers` of okavango.py (lines 134-156): raises
`ValueError` when no geometry was loaded; otherwise left-joins every
indicator table (no empty-table skip, no column dropping), suffixing
colliding incoming columns with `_<filename stem>`. -/
def merge_geospatial_layers (geo : Option DF) (dfs : List (String × DF)) : Except String DF :=
  match geo with
  | none => .error "Shapefile data not loaded. Cannot merge."
  | some g => dfs.foldlM (fun acc fd =>
      match acc.colIdx "GU_A3", fd.2.colIdx "Code" with
      | some li, some ri =>
          .ok { cols := acc.cols ++ fd.2.cols.map (fun c =>
                  if memb c acc.cols then c ++ ("_" ++ stemOf fd.1) else c),
                rows := acc.rows.flatMap (fun lr =>
                  let ms := fd.2.rows.filter (fun rr => decide (rr.getD ri Cell.null = lr.getD li Cell.null))
                  if ms.isEmpty then [lr ++ fd.2.cols.map (fun _ => Cell.null)]
                  else ms.map (fun rr => lr ++ rr)) }
      | _, _ => .error "KeyError") g

/-- An entry of a zip archive: internal name and (parsed CSV) content. -/
structure ZipEntry where
  name : String
  content : String
deriving DecidableEq, Repr

/-- `_fetch_and_extract_csv` (okavango.py lines 88-101), after a successful
request: list the `.csv` entries of the archive; when there is at least one,
parse the first and write it to `save_path` (pandas' read/write round-trip
is treated as the identity on the content); when there is none, nothing is
written.  The result is the written `(path, content)` pair, if any. -/
def fetch_and_extract_csv (entries : List ZipEntry) (save_path : String) : Option (String × String) :=
  let csv_files := entries.filter (fun e => endsWithStr e.name ".csv")
  match csv_files with
  | [] => none
  | e :: _ => some (save_path, e.content)

/-- Modelled from the spec: section 4.1 of the specification describes the
zipped-single-CSV fetch as extracting "the entry matching the expected
target name (or the first CSV found if no name match)"; this definition
follows those words, for comparison with `fetch_and_extract_csv` above. -/
def extract_csv_spec (entries : List ZipEntry) (save_path : String) : Option (String × String) :=
  let csv_files := entries.filter (fun e => endsWithStr e.name ".csv")
  match csv_files.find? (fun e => decide (e.name = save_path)) with
  | some e => some (save_path, e.content)
  | none =>
      match csv_files with
      | [] => none
      | e :: _ => some (save_path, e.content)

end Okavango

/-- Antisymmetry of the integer order, packaged for `List.max?` lemmas. -/
instance : Std.Antisymm (fun (x y : Int) => x ≤ y) :=
  ⟨fun h1 h2 => le_antisymm h1 h2⟩

/-! ## Utility lemmas -/

theorem memb_iff {c : String} {l : List String} : memb c l = true ↔ c ∈ l := by
  simp [memb, List.any_eq_true]

theorem memv_iff {c : Cell} {l : List Cell} : memv c l = true ↔ c ∈ l := by
  simp [memv, List.any_eq_true]

theorem findIdx?_mem {c : String} {l : List String} (h : c ∈ l) :
    ∃ i, l.findIdx? (fun x => decide (x = c)) = some i := by
  induction l with
  | nil => cases h
  | cons a l ih =>
      by_cases hac : a = c
      · exact ⟨0, by simp [List.findIdx?_cons, hac]⟩
      · have hc : c ∈ l := by
          cases List.mem_cons.mp h with
          | inl h2 => exact absurd h2.symm hac
          | inr h2 => exact h2
        obtain ⟨i, hi⟩ := ih hc
        exact ⟨i + 1, by simp [List.findIdx?_cons, hac, hi]⟩

theorem colIdx_mem {df : DF} {c : String} (h : c ∈ df.cols) :
    ∃ i, df.colIdx c = some i := findIdx?_mem h

theorem matchAt_append_self (n rest : List Char) : matchAt n (n ++ rest) = true := by
  induction n with
  | nil => rfl
  | cons a l ih => simp [matchAt, ih]

theorem endsWith_append_drop (c : String) : endsWithStr (c ++ "_drop") "_drop" = true := by
  have h : (c ++ "_drop").toList = c.toList ++ "_drop".toList := rfl
  simp only [endsWithStr, h, List.reverse_append]
  exact matchAt_append_self _ _

theorem filter_one_flatMap {α : Type} {l : List α} {f : α → List α}
    (h : ∀ x ∈ l, (f x).length = 1) : (l.flatMap f).length = l.length := by
  induction l with
  | nil => rfl
  | cons a l ih =>
      simp only [List.flatMap_cons, List.length_append, List.length_cons]
      rw [h a (List.mem_cons_self a l), ih (fun x hx => h x (List.mem_cons_of_mem a hx))]
      omega

theorem filter_len_le_one {α β : Type} [DecidableEq β] {l : List α} {k : α → β}
    (h : (l.map k).Nodup) (v : β) :
    (l.filter (fun x => decide (k x = v))).length ≤ 1 := by
  induction l with
  | nil => simp
  | cons a l ih =>
      simp only [List.map_cons, List.nodup_cons] at h
      by_cases hv : k a = v
      · have hemp : l.filter (fun x => decide (k x = v)) = [] := by
          rw [List.filter_eq_nil_iff]
          intro x hx
          simp only [decide_eq_true_eq]
          intro hxv
          exact h.1 (hv ▸ hxv ▸ List.mem_map_of_mem k hx)
        simp [List.filter_cons, hv, hemp]
      · simpa [List.filter_cons, hv] using ih h.2

/-! ## C3: behavior when the geometry source is missing -/

/-- C3 counterexample: with no geometry loaded and a non-trivial indicator
table present, `merge_geospatial_layers` of okavango_app.py returns
normally and produces no merged table (`merged_data` stays `None`) — the
run does not fail with any error at this point, contradicting the claim
that a `PipelineError` is raised. -/
theorem merge_missing_geometry_cex :
    OkavangoApp.merge_geospatial_layers none [⟨["Code"], [[Cell.str "USA"]]⟩] =
      Except.ok none := rfl

/-- C3 (amended): if the geometry source was never supplied or failed to
load, no merged result is produced: the okavango_app.py merge returns
without raising and leaves `merged_data` unset, while the okavango.py
merge raises a `ValueError`; neither raises a `PipelineError` (no such
type exists in the code). -/
theorem merge_missing_geometry_behavior :
    (∀ dfs : List DF, OkavangoApp.merge_geospatial_layers none dfs = Except.ok none) ∧
    (∀ dfs : List (String × DF), Okavango.merge_geospatial_layers none dfs =
      Except.error "Shapefile data not loaded. Cannot merge.") :=
  ⟨fun _ => rfl, fun _ => rfl⟩

/-! ## C9: which zip entry the CSV fetcher extracts -/

/-- C9 counterexample: an archive holding `other.csv` and `target.csv`,
fetched for target `target.csv`: the code extracts the first CSV
(`other.csv`'s content) while the claimed name-matching policy would
extract `target.csv`'s content. -/
theorem extract_csv_name_match_cex :
    Okavango.fetch_and_extract_csv [⟨"other.csv", "A"⟩, ⟨"target.csv", "B"⟩] "target.csv" =
      some ("target.csv", "A") ∧
    Okavango.extract_csv_spec [⟨"other.csv", "A"⟩, ⟨"target.csv", "B"⟩] "target.csv" =
      some ("target.csv", "B") ∧
    Okavango.fetch_and_extract_csv [⟨"other.csv", "A"⟩, ⟨"target.csv", "B"⟩] "target.csv" ≠
      Okavango.extract_csv_spec [⟨"other.csv", "A"⟩, ⟨"target.csv", "B"⟩] "target.csv" := by
  refine ⟨by decide, by decide, by decide⟩

/-- C9 (amended): for a zipped-single-CSV source the fetcher extracts the
first `.csv` entry in archive order, regardless of the expected target
name, and writes it to the target path under the declared filename; when
the archive holds no `.csv` entry nothing is written. -/
theorem extract_csv_first_csv (entries : List Okavango.ZipEntry) (save_path : String) :
    Okavango.fetch_and_extract_csv entries save_path =
      (entries.find? (fun e => endsWithStr e.name ".csv")).map
        (fun e => (save_path, e.content)) := by
  have h := List.filter_head? (fun e => endsWithStr e.name ".csv") entries
  rw [← h]
  cases hf : entries.filter (fun e => endsWithStr e.name ".csv") with
  | nil => simp [Okavango.fetch_and_extract_csv, hf]
  | cons e t => simp [Okavango.fetch_and_extract_csv, hf]

/-! ## C8: idempotent caching -/

/-- C8: calling the fetcher twice with the same source descriptor and cache
state performs exactly one network call: a cold call downloads once (one
network call, the target added to the cache), after which the second call
returns the state unchanged — and a call whose target already exists
returns immediately with no network call and no side effect on the cache. -/
theorem fetch_idempotent (s : OkavangoApp.DataSource) (st : OkavangoApp.FetchState)
    (t : String) (ht : OkavangoApp.targetName s = some t) :
    (memb t st.files = false →
      OkavangoApp.download_project_data [s] st =
        Except.ok ⟨t :: st.files, st.netCalls + 1⟩ ∧
      OkavangoApp.download_project_data [s] ⟨t :: st.files, st.netCalls + 1⟩ =
        Except.ok ⟨t :: st.files, st.netCalls + 1⟩) ∧
    (memb t st.files = true →
      OkavangoApp.download_project_data [s] st = Except.ok st) := by
  have hone : ∀ u : OkavangoApp.FetchState,
      OkavangoApp.download_project_data [s] u = OkavangoApp.downloadOne u s := by
    intro u
    cases h : OkavangoApp.downloadOne u s <;>
      simp [OkavangoApp.download_project_data, List.foldlM, h]
  have hmem : ∀ l : List String, memb t (t :: l) = true := by
    intro l; simp [memb]
  unfold OkavangoApp.targetName at ht
  cases hsf : s.is_shapefile with
  | true =>
      rw [hsf] at ht
      simp at ht
      subst ht
      refine ⟨fun hn => ⟨?_, ?_⟩, fun hy => ?_⟩
      · simp [hone, OkavangoApp.downloadOne, hsf, hn]
      · simp [hone, OkavangoApp.downloadOne, hsf, hmem]
      · simp [hone, OkavangoApp.downloadOne, hsf, hy]
  | false =>
      rw [hsf] at ht
      simp at ht
      refine ⟨fun hn => ⟨?_, ?_⟩, fun hy => ?_⟩
      · simp [hone, OkavangoApp.downloadOne, hsf, ht, hn]
      · simp [hone, OkavangoApp.downloadOne, hsf, ht, hmem]
      · simp [hone, OkavangoApp.downloadOne, hsf, ht, hy]

/-- C8 witness: a cold fetch of `test.csv` followed by a warm one. -/
theorem fetch_idempotent_w :
    (memb "test.csv" ([] : List String) = false →
      OkavangoApp.download_project_data [⟨"https://example.com/test.csv", some "test.csv", false⟩]
          ⟨[], 0⟩ = Except.ok ⟨["test.csv"], 1⟩ ∧
      OkavangoApp.download_project_data [⟨"https://example.com/test.csv", some "test.csv", false⟩]
          ⟨["test.csv"], 1⟩ = Except.ok ⟨["test.csv"], 1⟩) ∧
    (memb "test.csv" ([] : List String) = true →
      OkavangoApp.download_project_data [⟨"https://example.com/test.csv", some "test.csv", false⟩]
          ⟨[], 0⟩ = Except.ok ⟨[], 0⟩) :=
  fetch_idempotent ⟨"https://example.com/test.csv", some "test.csv", false⟩ ⟨[], 0⟩ "test.csv" rfl

/-! ## C7: the column-inference scan -/

/-- C7 counterexample: for the header `["CommonName", "Entity"]` (no
code-like column) the code's fallback picks `CommonName` — the first
header in header order containing a fallback keyword — while the claimed
entity-first keyword priority would pick `Entity`. -/
theorem find_geo_col_fallback_cex :
    OkavangoApp.findGeoCol ["CommonName", "Entity"] = some "CommonName" ∧
    OkavangoApp.findGeoColSpec ["CommonName", "Entity"] = some "Entity" ∧
    OkavangoApp.findGeoCol ["CommonName", "Entity"] ≠
      OkavangoApp.findGeoColSpec ["CommonName", "Entity"] := by
  refine ⟨by decide, by decide, by decide⟩

/-- C7 (amended): the normalizer scans header names case-insensitively for
the substrings `code` or `iso` and, when any header matches, the chosen
column is code-like (the fallback is not consulted); only if no such
header exists does it fall back to scanning for `entity`, `country` or
`name`, and that fallback selects the first matching header in header
order, not in entity/country/name keyword-priority order. -/
theorem find_geo_col_scan (cols : List String) :
    (∀ c ∈ cols, OkavangoApp.kwCode c = true →
      ∃ d, OkavangoApp.findGeoCol cols = some d ∧ OkavangoApp.kwCode d = true) ∧
    ((∀ c ∈ cols, OkavangoApp.kwCode c = false) →
      OkavangoApp.findGeoCol cols = cols.find? OkavangoApp.kwName) := by
  constructor
  · intro c hc hkw
    have hsome : (cols.find? OkavangoApp.kwCode).isSome := by
      rw [List.find?_isSome]
      exact ⟨c, hc, hkw⟩
    obtain ⟨d, hd⟩ := Option.isSome_iff_exists.mp hsome
    exact ⟨d, by simp [OkavangoApp.findGeoCol, hd], List.find?_some hd⟩
  · intro hall
    have hnone : cols.find? OkavangoApp.kwCode = none := by
      rw [List.find?_eq_none]
      intro c hc
      simp [hall c hc]
    simp [OkavangoApp.findGeoCol, hnone]

/-- C7 witness: a code-like header `ISO` wins the first scan; with the
headers `["CommonName", "Entity"]` the fallback returns the first
fallback-keyword match in header order. -/
theorem find_geo_col_scan_w :
    (∃ d, OkavangoApp.findGeoCol ["ISO", "Entity"] = some d ∧ OkavangoApp.kwCode d = true) ∧
    OkavangoApp.findGeoCol ["CommonName", "Entity"] =
      ["CommonName", "Entity"].find? OkavangoApp.kwName :=
  ⟨(find_geo_col_scan ["ISO", "Entity"]).1 "ISO" (by decide) (by decide),
   (find_geo_col_scan ["CommonName", "Entity"]).2 (by decide)⟩

/-! ## C10 and C6 counterexamples -/

/-- C10 counterexample: a polygon collection carrying a column named
`x_drop` merged with an empty sequence of indicator tables: no join runs,
so the merged table still contains the `_drop`-suffixed column. -/
theorem merge_drop_suffix_cex :
    OkavangoApp.merge_geospatial_layers
        (some ⟨["ADM0_A3", "x_drop"], [[Cell.str "USA", Cell.int 1]]⟩) [] =
      Except.ok (some ⟨["ADM0_A3", "x_drop"], [[Cell.str "USA", Cell.int 1]]⟩) ∧
    endsWithStr "x_drop" "_drop" = true :=
  ⟨rfl, by decide⟩

/-- C6 counterexample: a table with two `USA` rows and no `Year` column is
normalized unchanged — the most-recent dedup only runs when a `Year`
column exists, so the output has two rows for the same `Code`. -/
theorem normalize_unique_code_cex :
    OkavangoApp.normalize ⟨["Code", "V"], [[Cell.str "USA", Cell.int 1], [Cell.str "USA", Cell.int 2]]⟩ =
      some ⟨["Code", "V"], [[Cell.str "USA", Cell.int 1], [Cell.str "USA", Cell.int 2]]⟩ ∧
    ¬ (([[Cell.str "USA", Cell.int 1], [Cell.str "USA", Cell.int 2]].map
        (fun r => r.getD 0 Cell.null)).Nodup) := by
  refine ⟨by decide, by decide⟩

/-! ## Merge-engine lemmas -/

open OkavangoApp

theorem mapCode_not_drop (g : DF) : endsWithStr (mapCodeOf g) "_drop" = false := by
  unfold mapCodeOf
  by_cases h : memb "ADM0_A3" g.cols = true
  · rw [if_pos h]; decide
  · rw [if_neg h]; decide

theorem goodKey_spec {df : DF} (h : goodKey df = true) :
    ∃ i, df.colIdx "Code" = some i ∧
      (df.rows.map (fun r => r.getD i Cell.null)).Nodup := by
  unfold goodKey at h
  cases hc : df.colIdx "Code" with
  | none => rw [hc] at h; cases h
  | some i =>
      rw [hc] at h
      exact ⟨i, rfl, of_decide_eq_true h⟩

theorem mergeStep_spec {mapCode : String} {acc df : DF}
    (hmc : mapCode ∈ acc.cols) (hnd : endsWithStr mapCode "_drop" = false)
    (hkey : df.empty = false → goodKey df = true) :
    ∃ m, mergeStep mapCode acc df = Except.ok m ∧
      m.rows.length = acc.rows.length ∧
      mapCode ∈ m.cols ∧
      (df.empty = true → m = acc) ∧
      (df.empty = false → ∀ c ∈ m.cols, endsWithStr c "_drop" = false) := by
  cases hemp : df.empty with
  | true =>
      refine ⟨acc, ?_, rfl, hmc, fun _ => rfl, fun h => absurd h (by decide)⟩
      simp [mergeStep, hemp]
  | false =>
      obtain ⟨ri, hri, hnodup⟩ := goodKey_spec (hkey hemp)
      obtain ⟨li, hli⟩ := colIdx_mem hmc
      have hstep : mergeStep mapCode acc df = Except.ok (dropSuffixCols
          { cols := acc.cols ++ df.cols.map (fun c => if memb c acc.cols then c ++ "_drop" else c),
            rows := acc.rows.flatMap (fun lr =>
              let ms := df.rows.filter (fun rr => decide (rr.getD ri Cell.null = lr.getD li Cell.null))
              if ms.isEmpty then [lr ++ df.cols.map (fun _ => Cell.null)]
              else ms.map (fun rr => lr ++ rr)) }) := by
        simp only [mergeStep, hemp, Bool.false_eq_true, if_false, mergeLeft]
        rw [hli, hri]
        rfl
      refine ⟨_, hstep, ?_, ?_, fun h => absurd h (by decide), fun _ => ?_⟩
      · simp only [dropSuffixCols, List.length_map]
        apply filter_one_flatMap
        intro lr hlr
        set ms := df.rows.filter
          (fun rr => decide (rr.getD ri Cell.null = lr.getD li Cell.null)) with hms
        by_cases hempms : ms.isEmpty
        · simp [hempms]
        · have hle : ms.length ≤ 1 := filter_len_le_one hnodup _
          have hpos : 0 < ms.length := by
            cases hml : ms with
            | nil => rw [hml] at hempms; simp at hempms
            | cons a t => simp [hml]
          rw [if_neg hempms, List.length_map]
          omega
      · simp only [dropSuffixCols, List.mem_filter]
        refine ⟨List.mem_append_left _ hmc, by rw [hnd]; rfl⟩
      · intro c hcm
        simp only [dropSuffixCols, List.mem_filter] at hcm
        have h2 := hcm.2
        cases h3 : endsWithStr c "_drop" with
        | false => rfl
        | true => rw [h3] at h2; cases h2

theorem foldlM_merge_spec (mapCode : String) (hnd : endsWithStr mapCode "_drop" = false) :
    ∀ (dfs : List DF) (acc : DF), mapCode ∈ acc.cols →
      (∀ df ∈ dfs, df.empty = false → goodKey df = true) →
      ∃ m, dfs.foldlM (mergeStep mapCode) acc = Except.ok m ∧
        m.rows.length = acc.rows.length ∧
        mapCode ∈ m.cols ∧
        ((∀ c ∈ acc.cols, endsWithStr c "_drop" = false) →
          ∀ c ∈ m.cols, endsWithStr c "_drop" = false) ∧
        ((∃ df ∈ dfs, df.empty = false) →
          ∀ c ∈ m.cols, endsWithStr c "_drop" = false) := by
  intro dfs
  induction dfs with
  | nil =>
      intro acc hmc _
      exact ⟨acc, rfl, rfl, hmc, fun h => h, fun h => absurd h (by simp)⟩
  | cons df dfs ih =>
      intro acc hmc hkeys
      obtain ⟨m1, hstep, hlen1, hmc1, hempcase, hnecase⟩ :=
        mergeStep_spec hmc hnd (hkeys df (List.mem_cons_self df dfs))
      obtain ⟨m, hfold, hlen2, hmcm, hpres, hne⟩ :=
        ih m1 hmc1 (fun d hd => hkeys d (List.mem_cons_of_mem df hd))
      have hall : (df :: dfs).foldlM (mergeStep mapCode) acc = Except.ok m := by
        rw [List.foldlM_cons, hstep]
        simpa using hfold
      refine ⟨m, hall, hlen2.trans hlen1, hmcm, ?_, ?_⟩
      · intro haccnd
        apply hpres
        cases hemp : df.empty with
        | true => rw [hempcase hemp]; exact haccnd
        | false => exact hnecase hemp
      · rintro ⟨d, hd, hdemp⟩
        cases List.mem_cons.mp hd with
        | inl h =>
            apply hpres
            subst h
            exact hnecase hdemp
        | inr h => exact hne ⟨d, h, hdemp⟩

/-! ## C1: row preservation -/

/-- C1: for every non-empty polygon collection that carries its join
attribute, and every sequence of indicator tables (including the empty
sequence) satisfying the indicator-table invariant (a `Code` column with
pairwise-distinct values — the spec's "exactly one row per Code"),
`merge_geospatial_layers` produces a merged table whose row count equals
the polygon collection's row count: rows are never duplicated by a join
and never dropped. -/
theorem merge_row_preservation (g : DF) (dfs : List DF)
    (_hg : g.rows ≠ [])
    (hmc : mapCodeOf g ∈ g.cols)
    (hkeys : ∀ df ∈ dfs, df.empty = false → goodKey df = true) :
    mergedRowCount (merge_geospatial_layers (some g) dfs) = some g.rows.length := by
  obtain ⟨m, hm, hlen, -, -, -⟩ :=
    foldlM_merge_spec (mapCodeOf g) (mapCode_not_drop g) dfs g hmc hkeys
  simp [merge_geospatial_layers, hm, mergedRowCount, hlen, Except.map]

/-- C1 witness: the spec's two-country scenario — two polygons, one
indicator table with codes `USA` and `FRA` — merges to exactly two rows. -/
theorem merge_row_preservation_w :
    mergedRowCount (merge_geospatial_layers
        (some ⟨["ADM0_A3", "geometry"], [[Cell.str "USA", Cell.str "P1"], [Cell.str "FRA", Cell.str "P2"]]⟩)
        [⟨["Code", "Metric"], [[Cell.str "USA", Cell.int 100], [Cell.str "FRA", Cell.int 200]]⟩]) =
      some 2 :=
  merge_row_preservation
    ⟨["ADM0_A3", "geometry"], [[Cell.str "USA", Cell.str "P1"], [Cell.str "FRA", Cell.str "P2"]]⟩
    [⟨["Code", "Metric"], [[Cell.str "USA", Cell.int 100], [Cell.str "FRA", Cell.int 200]]⟩]
    (by decide) (by decide) (by decide)

/-! ## C10 (amended): the `_drop` suffix invariant -/

/-- C10 (amended): after each executed join every column ending in `_drop`
is removed, so whenever at least one non-empty indicator table is merged
the merged table contains no column whose name ends with `_drop` — in
particular an input column whose original name ends in `_drop` is silently
removed even when no collision occurred.  (When no join runs — no
indicator tables, or only empty ones — the polygon collection's columns,
including any ending in `_drop`, survive unchanged; see the
counterexample.) -/
theorem merge_no_drop_cols (g : DF) (dfs : List DF)
    (hmc : mapCodeOf g ∈ g.cols)
    (hkeys : ∀ df ∈ dfs, df.empty = false → goodKey df = true)
    (hne : ∃ df ∈ dfs, df.empty = false) :
    ∀ c ∈ mergedCols (merge_geospatial_layers (some g) dfs),
      endsWithStr c "_drop" = false := by
  obtain ⟨m, hm, -, -, -, hdrop⟩ :=
    foldlM_merge_spec (mapCodeOf g) (mapCode_not_drop g) dfs g hmc hkeys
  intro c hc
  apply hdrop hne
  simpa [merge_geospatial_layers, hm, mergedCols, Except.map] using hc

/-- C10 witness: a polygon collection with a `geom_drop` column joined with
one non-empty indicator table: the theorem applied to the surviving
concrete column `Metric` of that merge (the `_drop`-named input column is
gone from the merged result). -/
theorem merge_no_drop_cols_w :
    endsWithStr "Metric" "_drop" = false :=
  merge_no_drop_cols
    ⟨["ADM0_A3", "geom_drop"], [[Cell.str "USA", Cell.str "P1"]]⟩
    [⟨["Code", "Metric"], [[Cell.str "USA", Cell.int 100]]⟩]
    (by decide) (by decide) (by decide) "Metric" (by decide)

theorem mergeStep_cols {mapCode : String} {acc df m : DF}
    (hemp : df.empty = false) (hm : mergeStep mapCode acc df = Except.ok m) :
    m.cols = (acc.cols ++ df.cols.map
        (fun c => if memb c acc.cols then c ++ "_drop" else c)).filter
      (fun c => !(endsWithStr c "_drop")) := by
  unfold mergeStep at hm
  rw [hemp] at hm
  simp only [Bool.false_eq_true, if_false] at hm
  unfold mergeLeft at hm
  cases hli : acc.colIdx mapCode with
  | none => rw [hli] at hm; cases hm
  | some li =>
      cases hri : df.colIdx "Code" with
      | none => rw [hli, hri] at hm; cases hm
      | some ri =>
          rw [hli, hri] at hm
          simp only [Except.map, Except.ok.injEq] at hm
          rw [← hm]
          rfl

theorem first_merge_cols {mapCode : String} {acc df m : DF}
    (hemp : df.empty = false) (hm : mergeStep mapCode acc df = Except.ok m)
    (haccnd : ∀ c ∈ acc.cols, endsWithStr c "_drop" = false)
    (hdfnd : ∀ c ∈ df.cols, endsWithStr c "_drop" = false) :
    m.cols = acc.cols ++ df.cols.filter (fun c => !(memb c acc.cols)) := by
  rw [mergeStep_cols hemp hm, List.filter_append]
  congr 1
  · apply List.filter_eq_self.mpr
    intro c hc
    rw [haccnd c hc]
    rfl
  · rw [List.filter_map]
    have hcongr : df.cols.filter
        ((fun c => !(endsWithStr c "_drop")) ∘
          (fun c => if memb c acc.cols then c ++ "_drop" else c)) =
        df.cols.filter (fun c => !(memb c acc.cols)) := by
      apply List.filter_congr
      intro c hc
      by_cases hmemb : memb c acc.cols = true
      · simp [Function.comp, hmemb, endsWith_append_drop c]
      · have hmf : memb c acc.cols = false := Bool.eq_false_iff.mpr hmemb
        simp [Function.comp, hmf, hdfnd c hc]
    rw [hcongr]
    have hid : (df.cols.filter (fun c => !(memb c acc.cols))).map
        (fun c => if memb c acc.cols then c ++ "_drop" else c) =
        (df.cols.filter (fun c => !(memb c acc.cols))).map id := by
      apply List.map_congr_left
      intro c hc
      obtain ⟨-, hcf⟩ := List.mem_filter.mp hc
      have : memb c acc.cols = false := by
        cases h : memb c acc.cols with
        | false => rfl
        | true => rw [h] at hcf; cases hcf
      rw [if_neg (by rw [this]; exact Bool.false_ne_true)]
      rfl
    rw [hid, List.map_id]

theorem second_merge_cols {mapCode : String} {m1 df m2 : DF}
    (hemp : df.empty = false) (hm : mergeStep mapCode m1 df = Except.ok m2)
    (hnd1 : ∀ c ∈ m1.cols, endsWithStr c "_drop" = false)
    (hsub : ∀ c ∈ df.cols, c ∈ m1.cols) :
    m2.cols = m1.cols := by
  rw [mergeStep_cols hemp hm, List.filter_append]
  have h1 : m1.cols.filter (fun c => !(endsWithStr c "_drop")) = m1.cols := by
    apply List.filter_eq_self.mpr
    intro c hc
    rw [hnd1 c hc]
    rfl
  have h2 : (df.cols.map (fun c => if memb c m1.cols then c ++ "_drop" else c)).filter
      (fun c => !(endsWithStr c "_drop")) = [] := by
    rw [List.filter_eq_nil_iff]
    intro x hx
    obtain ⟨c, hc, hfc⟩ := List.mem_map.mp hx
    have hmemb : memb c m1.cols = true := memb_iff.mpr (hsub c hc)
    rw [if_pos hmemb] at hfc
    rw [← hfc]
    simp [endsWith_append_drop c]
  rw [h1, h2, List.append_nil]

/-! ## C2: the join collision policy -/

/-- C2: for a polygon collection and a well-formed indicator table (distinct,
un-suffixed column names; a valid key), every colliding incoming column is
suffixed `_drop` and then dropped, so after one merge the columns are the
polygon columns followed by exactly the non-colliding indicator columns
(first-seen name wins); merging the same indicator table twice changes
neither the column set (the second arrival is discarded entirely) nor the
row count, and the merged header holds no duplicate column names. -/
theorem merge_same_table_collision (g df : DF)
    (hmc : mapCodeOf g ∈ g.cols)
    (hgnd : ∀ c ∈ g.cols, endsWithStr c "_drop" = false)
    (hdfnd : ∀ c ∈ df.cols, endsWithStr c "_drop" = false)
    (hgnodup : g.cols.Nodup) (hdfnodup : df.cols.Nodup)
    (hemp : df.empty = false) (hkey : goodKey df = true) :
    mergedCols (merge_geospatial_layers (some g) [df]) =
      g.cols ++ df.cols.filter (fun c => !(memb c g.cols)) ∧
    mergedCols (merge_geospatial_layers (some g) [df, df]) =
      mergedCols (merge_geospatial_layers (some g) [df]) ∧
    (mergedCols (merge_geospatial_layers (some g) [df, df])).Nodup ∧
    mergedRowCount (merge_geospatial_layers (some g) [df, df]) =
      some g.rows.length := by
  obtain ⟨m1, hstep1, hlen1, hmc1, -, hnd1case⟩ :=
    @mergeStep_spec (mapCodeOf g) g df hmc (mapCode_not_drop g) (fun _ => hkey)
  have hnd1 : ∀ c ∈ m1.cols, endsWithStr c "_drop" = false := hnd1case hemp
  have hcols1 : m1.cols = g.cols ++ df.cols.filter (fun c => !(memb c g.cols)) :=
    first_merge_cols hemp hstep1 hgnd hdfnd
  obtain ⟨m2, hstep2, hlen2, -, -, -⟩ :=
    @mergeStep_spec (mapCodeOf g) m1 df hmc1 (mapCode_not_drop g) (fun _ => hkey)
  have hsub : ∀ c ∈ df.cols, c ∈ m1.cols := by
    intro c hc
    rw [hcols1]
    by_cases hmemb : memb c g.cols = true
    · exact List.mem_append_left _ (memb_iff.mp hmemb)
    · refine List.mem_append_right _ (List.mem_filter.mpr ⟨hc, ?_⟩)
      rw [Bool.eq_false_iff.mpr hmemb]
      rfl
  have hcols2 : m2.cols = m1.cols := second_merge_cols hemp hstep2 hnd1 hsub
  have hrun1 : merge_geospatial_layers (some g) [df] = Except.ok (some m1) := by
    simp [merge_geospatial_layers, List.foldlM, hstep1, Except.map]
  have hrun2 : merge_geospatial_layers (some g) [df, df] = Except.ok (some m2) := by
    have h1 : ([df, df] : List DF).foldlM (mergeStep (mapCodeOf g)) g = Except.ok m2 := by
      rw [List.foldlM_cons, hstep1]
      show ([df] : List DF).foldlM (mergeStep (mapCodeOf g)) m1 = Except.ok m2
      rw [List.foldlM_cons, hstep2]
      rfl
    simp [merge_geospatial_layers, h1, Except.map]
  have hmc1eq : mergedCols (merge_geospatial_layers (some g) [df]) = m1.cols := by
    rw [hrun1]; rfl
  have hmc2eq : mergedCols (merge_geospatial_layers (some g) [df, df]) = m2.cols := by
    rw [hrun2]; rfl
  refine ⟨by rw [hmc1eq, hcols1], by rw [hmc1eq, hmc2eq, hcols2], ?_, ?_⟩
  · rw [hmc2eq, hcols2, hcols1]
    rw [List.nodup_append]
    refine ⟨hgnodup, hdfnodup.filter _, ?_⟩
    intro c hcg hcf
    obtain ⟨-, hnm⟩ := List.mem_filter.mp hcf
    rw [memb_iff.mpr hcg] at hnm
    cases hnm
  · rw [hrun2]
    simp only [mergedRowCount]
    rw [hlen2, hlen1]

/-- C2 witness: the two-country polygon table merged once and twice with the
same two-column indicator table. -/
theorem merge_same_table_collision_w :
    mergedCols (merge_geospatial_layers
        (some ⟨["ADM0_A3", "geometry"], [[Cell.str "USA", Cell.str "P1"]]⟩)
        [⟨["Code", "Metric"], [[Cell.str "USA", Cell.int 100]]⟩]) =
      ["ADM0_A3", "geometry"] ++
        ["Code", "Metric"].filter (fun c => !(memb c ["ADM0_A3", "geometry"])) ∧
    mergedCols (merge_geospatial_layers
        (some ⟨["ADM0_A3", "geometry"], [[Cell.str "USA", Cell.str "P1"]]⟩)
        [⟨["Code", "Metric"], [[Cell.str "USA", Cell.int 100]]⟩,
         ⟨["Code", "Metric"], [[Cell.str "USA", Cell.int 100]]⟩]) =
      mergedCols (merge_geospatial_layers
        (some ⟨["ADM0_A3", "geometry"], [[Cell.str "USA", Cell.str "P1"]]⟩)
        [⟨["Code", "Metric"], [[Cell.str "USA", Cell.int 100]]⟩]) ∧
    (mergedCols (merge_geospatial_layers
        (some ⟨["ADM0_A3", "geometry"], [[Cell.str "USA", Cell.str "P1"]]⟩)
        [⟨["Code", "Metric"], [[Cell.str "USA", Cell.int 100]]⟩,
         ⟨["Code", "Metric"], [[Cell.str "USA", Cell.int 100]]⟩])).Nodup ∧
    mergedRowCount (merge_geospatial_layers
        (some ⟨["ADM0_A3", "geometry"], [[Cell.str "USA", Cell.str "P1"]]⟩)
        [⟨["Code", "Metric"], [[Cell.str "USA", Cell.int 100]]⟩,
         ⟨["Code", "Metric"], [[Cell.str "USA", Cell.int 100]]⟩]) = some 1 :=
  merge_same_table_collision
    ⟨["ADM0_A3", "geometry"], [[Cell.str "USA", Cell.str "P1"]]⟩
    ⟨["Code", "Metric"], [[Cell.str "USA", Cell.int 100]]⟩
    (by decide) (by decide) (by decide) (by decide) (by decide) (by decide) (by decide)

/-! ## Sorting and deduplication lemmas (for the most-recent-wins dedup) -/

theorem mem_insertDesc {α : Type} {key : α → Int} {x a : α} {l : List α} :
    a ∈ insertDesc key x l ↔ a = x ∨ a ∈ l := by
  induction l with
  | nil => simp [insertDesc]
  | cons y ys ih =>
      unfold insertDesc
      by_cases h : key y ≤ key x
      · simp [h]
      · rw [if_neg h]
        simp only [List.mem_cons, ih]
        tauto

theorem length_insertDesc {α : Type} (key : α → Int) (x : α) (l : List α) :
    (insertDesc key x l).length = l.length + 1 := by
  induction l with
  | nil => rfl
  | cons y ys ih =>
      unfold insertDesc
      by_cases h : key y ≤ key x
      · simp [h]
      · rw [if_neg h]
        simp [ih]

theorem length_insSortDesc {α : Type} (key : α → Int) (l : List α) :
    (insSortDesc key l).length = l.length := by
  induction l with
  | nil => rfl
  | cons x xs ih => simp [insSortDesc, length_insertDesc, ih]

theorem insertDesc_of_all_le {α : Type} {key : α → Int} {x : α} {l : List α}
    (h : ∀ z ∈ l, key z ≤ key x) : insertDesc key x l = x :: l := by
  cases l with
  | nil => rfl
  | cons y ys =>
      unfold insertDesc
      rw [if_pos (h y (List.mem_cons_self y ys))]

theorem pairwise_insertDesc {α : Type} {key : α → Int} {x : α} {l : List α}
    (hs : List.Pairwise (fun a b => key b ≤ key a) l) :
    List.Pairwise (fun a b => key b ≤ key a) (insertDesc key x l) := by
  induction l with
  | nil => simp [insertDesc]
  | cons y ys ih =>
      unfold insertDesc
      by_cases h : key y ≤ key x
      · rw [if_pos h]
        refine List.Pairwise.cons ?_ hs
        intro z hz
        cases List.mem_cons.mp hz with
        | inl hzy => rw [hzy]; exact h
        | inr hzys => exact le_trans (List.rel_of_pairwise_cons hs hzys) h
      · rw [if_neg h]
        refine List.Pairwise.cons ?_ (ih hs.of_cons)
        intro z hz
        cases mem_insertDesc.mp hz with
        | inl hzx => rw [hzx]; exact le_of_lt (lt_of_not_le h)
        | inr hzys => exact List.rel_of_pairwise_cons hs hzys

theorem pairwise_insSortDesc {α : Type} (key : α → Int) (l : List α) :
    List.Pairwise (fun a b => key b ≤ key a) (insSortDesc key l) := by
  induction l with
  | nil => exact List.Pairwise.nil
  | cons x xs ih => exact pairwise_insertDesc ih

theorem insertDesc_cons {α : Type} (key : α → Int) (x y : α) (ys : List α) :
    insertDesc key x (y :: ys) =
      if key y ≤ key x then x :: y :: ys else y :: insertDesc key x ys := rfl

theorem filter_insertDesc {α : Type} {key : α → Int} {p : α → Bool} {x : α} {l : List α}
    (hs : List.Pairwise (fun a b => key b ≤ key a) l) :
    (insertDesc key x l).filter p =
      if p x then insertDesc key x (l.filter p) else l.filter p := by
  induction l with
  | nil =>
      cases hpx : p x <;> simp [insertDesc, List.filter, hpx]
  | cons y ys ih =>
      rw [insertDesc_cons]
      have hys : List.Pairwise (fun a b => key b ≤ key a) ys := hs.of_cons
      by_cases h : key y ≤ key x
      · rw [if_pos h]
        cases hpx : p x with
        | false => simp [List.filter_cons, hpx]
        | true =>
            rw [if_pos rfl]
            have hall : ∀ z ∈ (y :: ys).filter p, key z ≤ key x := by
              intro z hz
              have hzmem : z ∈ y :: ys := List.mem_of_mem_filter hz
              cases List.mem_cons.mp hzmem with
              | inl hzy => rw [hzy]; exact h
              | inr hzys => exact le_trans (List.rel_of_pairwise_cons hs hzys) h
            rw [insertDesc_of_all_le hall]
            simp [List.filter_cons, hpx]
      · rw [if_neg h]
        cases hpy : p y with
        | false =>
            have hstep : (y :: insertDesc key x ys).filter p =
                (insertDesc key x ys).filter p := by
              simp [List.filter_cons, hpy]
            rw [hstep, ih hys]
            cases hpx : p x with
            | false => simp [List.filter_cons, hpy]
            | true =>
                rw [if_pos rfl, if_pos rfl]
                have hfil : (y :: ys).filter p = ys.filter p := by
                  simp [List.filter_cons, hpy]
                rw [hfil]
        | true =>
            have hstep : (y :: insertDesc key x ys).filter p =
                y :: (insertDesc key x ys).filter p := by
              simp [List.filter_cons, hpy]
            rw [hstep, ih hys]
            have hfil : (y :: ys).filter p = y :: ys.filter p := by
              simp [List.filter_cons, hpy]
            cases hpx : p x with
            | false =>
                rw [if_neg (by simp), if_neg (by simp), hfil]
            | true =>
                rw [if_pos rfl, if_pos rfl, hfil, insertDesc_cons, if_neg h]

theorem filter_insSortDesc {α : Type} (key : α → Int) (p : α → Bool) (l : List α) :
    (insSortDesc key l).filter p = insSortDesc key (l.filter p) := by
  induction l with
  | nil => rfl
  | cons x xs ih =>
      show (insertDesc key x (insSortDesc key xs)).filter p =
        insSortDesc key ((x :: xs).filter p)
      rw [filter_insertDesc (pairwise_insSortDesc key xs), ih]
      cases hpx : p x with
      | false => simp [List.filter_cons, hpx]
      | true => simp [List.filter_cons, hpx, insSortDesc]

theorem maxKey_eq {α : Type} (key : α → Int) (l : List α) :
    maxKey key l = (l.map key).max? := by
  induction l with
  | nil => rfl
  | cons x xs ih =>
      rw [List.map_cons, List.max?_cons]
      show (match maxKey key xs with
        | none => some (key x)
        | some m => some (max (key x) m)) = _
      rw [ih]
      cases hm : (xs.map key).max? <;> rfl

theorem maxKey_le {α : Type} {key : α → Int} {l : List α} {m : Int}
    (h : maxKey key l = some m) : ∀ z ∈ l, key z ≤ m := by
  rw [maxKey_eq] at h
  obtain ⟨-, hle⟩ :=
    (List.max?_eq_some_iff (fun a => le_refl a) (fun a b => max_choice a b)
      (fun _ _ _ => max_le_iff)).mp h
  intro z hz
  exact hle (key z) (List.mem_map_of_mem key hz)

theorem maxKey_eq_none {α : Type} {key : α → Int} {l : List α}
    (h : maxKey key l = none) : l = [] := by
  rw [maxKey_eq] at h
  cases l with
  | nil => rfl
  | cons x xs => rw [List.map_cons, List.max?_cons] at h; cases h

theorem head_insSortDesc {α : Type} (key : α → Int) (l : List α) :
    (insSortDesc key l).head? =
      match maxKey key l with
      | none => none
      | some m => l.find? (fun z => decide (key z = m)) := by
  induction l with
  | nil => rfl
  | cons x xs ih =>
      show (insertDesc key x (insSortDesc key xs)).head? = _
      cases hmx : maxKey key xs with
      | none =>
          have hxs : xs = [] := maxKey_eq_none hmx
          subst hxs
          show some x = _
          have hm1 : maxKey key [x] = some (key x) := rfl
          rw [hm1]
          simp [List.find?]
      | some m =>
          rw [hmx] at ih
          have ih2 : (insSortDesc key xs).head? =
              xs.find? (fun z => decide (key z = m)) := ih
          cases hsort : insSortDesc key xs with
          | nil =>
              exfalso
              have hlen := length_insSortDesc key xs
              rw [hsort] at hlen
              have hxs : xs = [] := List.eq_nil_of_length_eq_zero hlen.symm
              rw [hxs] at hmx
              cases hmx
          | cons y ys =>
              have hy : xs.find? (fun z => decide (key z = m)) = some y := by
                rw [← ih2, hsort]
                rfl
              have hkeyy : key y = m := by
                have := List.find?_some hy
                simpa using this
              have hmx2 : maxKey key (x :: xs) = some (max (key x) m) := by
                show (match maxKey key xs with
                  | none => some (key x)
                  | some mm => some (max (key x) mm)) = _
                rw [hmx]
              rw [hmx2]
              show (insertDesc key x (y :: ys)).head? =
                (x :: xs).find? (fun z => decide (key z = max (key x) m))
              rw [insertDesc_cons]
              by_cases hc : key y ≤ key x
              · rw [if_pos hc]
                have hmax : max (key x) m = key x := max_eq_left (hkeyy ▸ hc)
                show some x = (x :: xs).find? (fun z => decide (key z = max (key x) m))
                rw [hmax]
                simp [List.find?_cons]
              · rw [if_neg hc]
                have hlt : key x < m := by
                  rw [← hkeyy]
                  exact lt_of_not_le hc
                have hmax : max (key x) m = m := max_eq_right (le_of_lt hlt)
                show some y = (x :: xs).find? (fun z => decide (key z = max (key x) m))
                rw [hmax]
                have hne : (decide (key x = m)) = false := by
                  simp [ne_of_lt hlt]
                rw [List.find?_cons, hne, hy]

theorem memv_cons (v k : Cell) (seen : List Cell) :
    memv v (k :: seen) = (decide (k = v) || memv v seen) := rfl

theorem dedupAux_cons (ci : Nat) (seen : List Cell) (r : List Cell) (rs : List (List Cell)) :
    dedupAux ci seen (r :: rs) =
      if memv (r.getD ci Cell.null) seen then dedupAux ci seen rs
      else r :: dedupAux ci (r.getD ci Cell.null :: seen) rs := rfl

theorem filter_dedupAux (ci : Nat) (v : Cell) :
    ∀ (l : List (List Cell)) (seen : List Cell),
      (dedupAux ci seen l).filter (fun r => decide (r.getD ci Cell.null = v)) =
        if memv v seen then []
        else ((l.filter (fun r => decide (r.getD ci Cell.null = v))).head?).toList := by
  intro l
  induction l with
  | nil =>
      intro seen
      cases h : memv v seen <;> simp [dedupAux, h]
  | cons r rs ih =>
      intro seen
      rw [dedupAux_cons]
      by_cases hk : memv (r.getD ci Cell.null) seen = true
      · rw [if_pos hk, ih seen]
        cases hvs : memv v seen with
        | true => rw [if_pos rfl, if_pos rfl]
        | false =>
            have hrv : (decide (r.getD ci Cell.null = v)) = false := by
              apply decide_eq_false
              intro heq
              rw [heq] at hk
              rw [hk] at hvs
              cases hvs
            rw [if_neg Bool.false_ne_true, if_neg Bool.false_ne_true,
              List.filter_cons, hrv, if_neg Bool.false_ne_true]
      · have hkf : memv (r.getD ci Cell.null) seen = false := Bool.eq_false_iff.mpr hk
        rw [if_neg hk]
        by_cases hrv : (decide (r.getD ci Cell.null = v)) = true
        · have heq : r.getD ci Cell.null = v := of_decide_eq_true hrv
          have hfc : (r :: dedupAux ci (r.getD ci Cell.null :: seen) rs).filter
              (fun q => decide (q.getD ci Cell.null = v)) =
              r :: (dedupAux ci (r.getD ci Cell.null :: seen) rs).filter
                (fun q => decide (q.getD ci Cell.null = v)) := by
            rw [List.filter_cons, hrv, if_pos rfl]
          rw [hfc, ih]
          have hvseen : memv v (r.getD ci Cell.null :: seen) = true := by
            rw [memv_cons, heq]
            simp
          rw [if_pos (by rw [hvseen])]
          have hvs : memv v seen = false := by
            rw [← heq]
            exact hkf
          rw [hvs, if_neg Bool.false_ne_true, List.filter_cons, hrv, if_pos rfl]
          rfl
        · have hrvf : (decide (r.getD ci Cell.null = v)) = false := Bool.eq_false_iff.mpr hrv
          have hfc : (r :: dedupAux ci (r.getD ci Cell.null :: seen) rs).filter
              (fun q => decide (q.getD ci Cell.null = v)) =
              (dedupAux ci (r.getD ci Cell.null :: seen) rs).filter
                (fun q => decide (q.getD ci Cell.null = v)) := by
            rw [List.filter_cons, hrvf, if_neg Bool.false_ne_true]
          rw [hfc, ih]
          have hvseen : memv v (r.getD ci Cell.null :: seen) = memv v seen := by
            rw [memv_cons, hrvf]
            simp
          rw [hvseen]
          cases hvs : memv v seen with
          | true => rw [if_pos rfl, if_pos rfl]
          | false =>
              rw [if_neg Bool.false_ne_true, if_neg Bool.false_ne_true,
                List.filter_cons, hrvf, if_neg Bool.false_ne_true]

theorem latestPerCode_filter (ci yi : Nat) (v : Cell) (rs : List (List Cell)) :
    (latestPerCode ci yi rs).filter (fun r => decide (r.getD ci Cell.null = v)) =
      (latestOf ci yi v rs).toList := by
  unfold latestPerCode
  rw [filter_dedupAux]
  have hseen : memv v ([] : List Cell) = false := rfl
  rw [hseen, if_neg Bool.false_ne_true]
  rw [filter_insSortDesc, head_insSortDesc]
  unfold latestOf
  rfl

/-! ## C5: most-recent-wins deduplication -/

/-- Inserting is a permutation action: `insertDesc` only moves the new
element into place. -/
theorem insertDesc_perm {α : Type} (key : α → Int) (x : α) (l : List α) :
    (insertDesc key x l).Perm (x :: l) := by
  induction l with
  | nil => exact List.Perm.refl _
  | cons y ys ih =>
      rw [insertDesc_cons]
      by_cases h : key y ≤ key x
      · rw [if_pos h]
      · rw [if_neg h]
        exact (ih.cons y).trans (List.Perm.swap x y ys)

/-- The modelled sort permutes its input. -/
theorem insSortDesc_perm {α : Type} (key : α → Int) (l : List α) :
    (insSortDesc key l).Perm l := by
  induction l with
  | nil => exact List.Perm.refl _
  | cons x xs ih =>
      show (insertDesc key x (insSortDesc key xs)).Perm (x :: xs)
      exact (insertDesc_perm key x (insSortDesc key xs)).trans (ih.cons x)

/-- C5 counterexample: with two `USA` rows tied at `Year = 2020`, the
reversed order is a legal `sort_values` output (the unstable default sort
guarantees only some descending-sorted permutation); under that legal run
the keep-first dedup keeps the second input row, while the
tie-break-by-input-order the claim asserts would keep the first — the
first max-`Year` row in input order is a different row.  So the claimed
tie-break is not a property of the code. -/
theorem normalize_tie_break_cex :
    IsSortValuesDesc (fun r => cellInt (r.getD 1 Cell.null))
      [[Cell.str "USA", Cell.int 2020, Cell.int 1],
       [Cell.str "USA", Cell.int 2020, Cell.int 2]]
      [[Cell.str "USA", Cell.int 2020, Cell.int 2],
       [Cell.str "USA", Cell.int 2020, Cell.int 1]] ∧
    dedupAux 0 []
        [[Cell.str "USA", Cell.int 2020, Cell.int 2],
         [Cell.str "USA", Cell.int 2020, Cell.int 1]] =
      [[Cell.str "USA", Cell.int 2020, Cell.int 2]] ∧
    [[Cell.str "USA", Cell.int 2020, Cell.int 1],
     [Cell.str "USA", Cell.int 2020, Cell.int 2]].find?
        (fun r => decide (cellInt (r.getD 1 Cell.null) = 2020)) =
      some [Cell.str "USA", Cell.int 2020, Cell.int 1] ∧
    ([Cell.str "USA", Cell.int 2020, Cell.int 2] : List Cell) ≠
      [Cell.str "USA", Cell.int 2020, Cell.int 1] :=
  ⟨⟨List.Perm.swap _ _ _, by decide⟩, by decide, by decide, by decide⟩

/-! ## Normalizer stage lemmas -/

theorem mem_insSortDesc {α : Type} {key : α → Int} {a : α} {l : List α} :
    a ∈ insSortDesc key l ↔ a ∈ l := by
  induction l with
  | nil => simp [insSortDesc]
  | cons x xs ih =>
      show a ∈ insertDesc key x (insSortDesc key xs) ↔ _
      rw [mem_insertDesc]
      simp [ih]

theorem dedupAux_subset (ci : Nat) :
    ∀ (l : List (List Cell)) (seen : List Cell), ∀ r ∈ dedupAux ci seen l, r ∈ l := by
  intro l
  induction l with
  | nil => intro seen r hr; cases hr
  | cons q qs ih =>
      intro seen r hr
      rw [dedupAux_cons] at hr
      by_cases hk : memv (q.getD ci Cell.null) seen = true
      · rw [if_pos hk] at hr
        exact List.mem_cons_of_mem q (ih seen r hr)
      · rw [if_neg hk] at hr
        cases List.mem_cons.mp hr with
        | inl h => rw [h]; exact List.mem_cons_self q qs
        | inr h => exact List.mem_cons_of_mem q (ih _ r h)

theorem latestPerCode_subset (ci yi : Nat) (rs : List (List Cell)) :
    ∀ r ∈ latestPerCode ci yi rs, r ∈ rs := by
  intro r hr
  exact mem_insSortDesc.mp (dedupAux_subset ci _ [] r hr)

theorem dedupAux_nodup (ci : Nat) :
    ∀ (l : List (List Cell)) (seen : List Cell),
      ((dedupAux ci seen l).map (fun r => r.getD ci Cell.null)).Nodup ∧
      ∀ x ∈ (dedupAux ci seen l).map (fun r => r.getD ci Cell.null), memv x seen = false := by
  intro l
  induction l with
  | nil => intro seen; exact ⟨List.nodup_nil, by simp [dedupAux]⟩
  | cons q qs ih =>
      intro seen
      rw [dedupAux_cons]
      by_cases hk : memv (q.getD ci Cell.null) seen = true
      · rw [if_pos hk]
        exact ih seen
      · rw [if_neg hk]
        have hkf : memv (q.getD ci Cell.null) seen = false := Bool.eq_false_iff.mpr hk
        obtain ⟨hnd, hsn⟩ := ih (q.getD ci Cell.null :: seen)
        rw [List.map_cons]
        constructor
        · rw [List.nodup_cons]
          refine ⟨?_, hnd⟩
          intro hmem
          have := hsn _ hmem
          rw [memv_cons] at this
          simp at this
        · intro x hx
          cases List.mem_cons.mp hx with
          | inl h => rw [h]; exact hkf
          | inr h =>
              have := hsn x h
              rw [memv_cons] at this
              exact (Bool.or_eq_false_iff.mp this).2

theorem latestPerCode_nodup (ci yi : Nat) (rs : List (List Cell)) :
    ((latestPerCode ci yi rs).map (fun r => r.getD ci Cell.null)).Nodup :=
  (dedupAux_nodup ci _ []).1

theorem colIdx_eq_of_cols {a b : DF} (h : a.cols = b.cols) (n : String) :
    a.colIdx n = b.colIdx n := by
  unfold DF.colIdx
  rw [h]

theorem dropnaOn_cols (df : DF) (n : String) : (dropnaOn df n).cols = df.cols := by
  unfold dropnaOn
  cases df.colIdx n <;> rfl

theorem dedupYear_cols (df : DF) : (dedupYear df).cols = df.cols := by
  unfold dedupYear
  by_cases h : memb "Year" df.cols = true
  · rw [if_pos h]
    cases df.colIdx "Code" <;> cases df.colIdx "Year" <;> rfl
  · rw [if_neg h]

theorem dedupYear_subset (df : DF) : ∀ r ∈ (dedupYear df).rows, r ∈ df.rows := by
  unfold dedupYear
  by_cases hy : memb "Year" df.cols = true
  · rw [if_pos hy]
    cases hci : df.colIdx "Code" with
    | none => cases df.colIdx "Year" <;> exact fun r hr => hr
    | some ci =>
        cases df.colIdx "Year" with
        | none => exact fun r hr => hr
        | some yi => exact fun r hr => latestPerCode_subset ci yi df.rows r hr
  · rw [if_neg hy]
    exact fun r hr => hr

theorem dedupYear_rows_year {df : DF} {ci yi : Nat} (hy : memb "Year" df.cols = true)
    (hci : df.colIdx "Code" = some ci) (hyi : df.colIdx "Year" = some yi) :
    (dedupYear df).rows = latestPerCode ci yi df.rows := by
  unfold dedupYear
  rw [if_pos hy, hci, hyi]

theorem dropnaOn_rows {df : DF} {n : String} {i : Nat} (hi : df.colIdx n = some i) :
    ∀ r ∈ (dropnaOn df n).rows, (decide (r.getD i Cell.null = Cell.null)) = false := by
  unfold dropnaOn
  rw [hi]
  intro r hr
  have h2 := (List.mem_filter.mp hr).2
  cases h3 : (decide (r.getD i Cell.null = Cell.null)) with
  | false => rfl
  | true => rw [h3] at h2; cases h2

theorem findGeoCol_mem {cols : List String} {geoCol : String}
    (h : findGeoCol cols = some geoCol) :
    geoCol ∈ cols ∧ (kwCode geoCol = true ∨ kwName geoCol = true) := by
  unfold findGeoCol at h
  cases hc : cols.find? kwCode with
  | some c =>
      rw [hc] at h
      injection h with h2
      subst h2
      exact ⟨List.mem_of_find?_eq_some hc, Or.inl (List.find?_some hc)⟩
  | none =>
      rw [hc] at h
      have h2 : cols.find? kwName = some geoCol := h
      exact ⟨List.mem_of_find?_eq_some h2, Or.inr (List.find?_some h2)⟩

theorem code_mem_toCodeCol {df : DF} {geoCol : String} (hmem : geoCol ∈ df.cols) :
    "Code" ∈ (toCodeCol df geoCol).cols := by
  unfold toCodeCol
  by_cases hg : geoCol = "Code"
  · rw [if_pos (decide_eq_true hg)]
    rw [← hg]
    exact hmem
  · rw [if_neg (by rw [decide_eq_false hg]; exact Bool.false_ne_true)]
    unfold renameCol
    have hbase : geoCol ∈ (if memb "Code" df.cols then dropCol df "Code" else df).cols := by
      by_cases hc : memb "Code" df.cols = true
      · rw [if_pos hc]
        unfold dropCol
        exact List.mem_filter.mpr ⟨hmem, by rw [decide_eq_false hg]; rfl⟩
      · rw [if_neg hc]
        exact hmem
    exact List.mem_map.mpr ⟨geoCol, hbase, by rw [if_pos (decide_eq_true rfl)]⟩

theorem year_mem_toCodeCol {df : DF} {geoCol : String}
    (hkw : kwCode geoCol = true ∨ kwName geoCol = true)
    (hyear : "Year" ∈ df.cols) : "Year" ∈ (toCodeCol df geoCol).cols := by
  have hgy : geoCol ≠ "Year" := by
    intro h
    subst h
    cases hkw with
    | inl h2 => rw [show kwCode "Year" = false from by decide] at h2; cases h2
    | inr h2 => rw [show kwName "Year" = false from by decide] at h2; cases h2
  unfold toCodeCol
  by_cases hg : geoCol = "Code"
  · rw [if_pos (decide_eq_true hg)]
    exact hyear
  · rw [if_neg (by rw [decide_eq_false hg]; exact Bool.false_ne_true)]
    unfold renameCol
    have hbase : "Year" ∈ (if memb "Code" df.cols then dropCol df "Code" else df).cols := by
      by_cases hc : memb "Code" df.cols = true
      · rw [if_pos hc]
        unfold dropCol
        refine List.mem_filter.mpr ⟨hyear, ?_⟩
        rw [show (decide (("Year" : String) = "Code")) = false from by decide]
        rfl
      · rw [if_neg hc]
        exact hyear
    refine List.mem_map.mpr ⟨"Year", hbase, ?_⟩
    rw [if_neg (by rw [decide_eq_false (fun h => hgy h.symm)]; exact Bool.false_ne_true)]

theorem selectCols_cons_vals (df : DF) (n : String) (ns : List String) (i : Nat)
    (hi : df.colIdx n = some i) :
    (selectCols df (n :: ns)).rows.map (fun r => r.getD 0 Cell.null) =
      df.rows.map (fun r => r.getD i Cell.null) := by
  unfold selectCols
  simp only [List.map_map]
  apply List.map_congr_left
  intro r hr
  simp only [Function.comp, List.map_cons, List.getD_cons_zero, hi]

/-! ## C6 (amended): normalization invariants on `Code` -/

/-- C6 (amended): every indicator table produced by normalization leads with
the `Code` column and contains no row whose `Code` is null; the
exactly-one-row-per-`Code` half of the claimed invariant holds only when
the raw table has a `Year` column (the most-recent dedup is conditional on
it) — without a `Year` column duplicate `Code` rows survive, see the
counterexample.  The last conjunct shows the uniqueness conclusion does
not depend on the modelled sort realization: the keep-first dedup yields
pairwise-distinct `Code` values on any input order, hence on every output
the unstable sort may produce. -/
theorem normalize_code_invariants (df out : DF) (h : OkavangoApp.normalize df = some out) :
    out.cols.head? = some "Code" ∧
    (∀ r ∈ out.rows, ¬ (r.getD 0 Cell.null = Cell.null)) ∧
    ("Year" ∈ df.cols → (out.rows.map (fun r => r.getD 0 Cell.null)).Nodup) ∧
    (∀ (ci : Nat) (sorted : List (List Cell)),
      ((dedupAux ci [] sorted).map (fun r => r.getD ci Cell.null)).Nodup) := by
  unfold OkavangoApp.normalize at h
  cases hgeo : OkavangoApp.findGeoCol df.cols with
  | none => rw [hgeo] at h; cases h
  | some geoCol =>
      rw [hgeo] at h
      injection h with h2
      obtain ⟨hgeomem, hgeokw⟩ := findGeoCol_mem hgeo
      have hcode1 : "Code" ∈ (OkavangoApp.toCodeCol df geoCol).cols :=
        code_mem_toCodeCol hgeomem
      obtain ⟨i, hi⟩ := colIdx_mem hcode1
      have hi2 : (dropnaOn (OkavangoApp.toCodeCol df geoCol) "Code").colIdx "Code" = some i := by
        rw [colIdx_eq_of_cols (dropnaOn_cols _ _) "Code"]
        exact hi
      have hi3 : (OkavangoApp.dedupYear (dropnaOn (OkavangoApp.toCodeCol df geoCol) "Code")).colIdx
          "Code" = some i := by
        rw [colIdx_eq_of_cols (dedupYear_cols _) "Code"]
        exact hi2
      have hvals : out.rows.map (fun r => r.getD 0 Cell.null) =
          (OkavangoApp.dedupYear (dropnaOn (OkavangoApp.toCodeCol df geoCol) "Code")).rows.map
            (fun r => r.getD i Cell.null) := by
        rw [← h2]
        exact selectCols_cons_vals _ "Code" _ i hi3
      refine ⟨by rw [← h2]; rfl, ?_, ?_, fun ci sorted => (dedupAux_nodup ci sorted []).1⟩
      · intro r hr
        have hx : r.getD 0 Cell.null ∈ out.rows.map (fun r => r.getD 0 Cell.null) :=
          List.mem_map_of_mem _ hr
        rw [hvals] at hx
        obtain ⟨q, hq, hqe⟩ := List.mem_map.mp hx
        rw [← hqe]
        have hq2 : q ∈ (dropnaOn (OkavangoApp.toCodeCol df geoCol) "Code").rows :=
          dedupYear_subset _ q hq
        have := dropnaOn_rows hi q hq2
        intro heq
        rw [heq] at this
        simp at this
      · intro hyear
        have hyear2 : memb "Year" (dropnaOn (OkavangoApp.toCodeCol df geoCol) "Code").cols = true := by
          rw [memb_iff, dropnaOn_cols]
          exact year_mem_toCodeCol hgeokw hyear
        obtain ⟨yi, hyi⟩ := colIdx_mem (memb_iff.mp (by
          rw [memb_iff] at hyear2 ⊢
          exact hyear2))
        have hrows3 : (OkavangoApp.dedupYear (dropnaOn (OkavangoApp.toCodeCol df geoCol) "Code")).rows =
            latestPerCode i yi (dropnaOn (OkavangoApp.toCodeCol df geoCol) "Code").rows :=
          dedupYear_rows_year hyear2 hi2 hyi
        rw [hvals, hrows3]
        exact latestPerCode_nodup i yi _

/-- C6 witness: the normalized two-row `USA` table with a `Year` column,
plus the sort-independent uniqueness conjunct at a concrete row list. -/
theorem normalize_code_invariants_w :
    (⟨["Code", "V"], [[Cell.str "USA", Cell.int 2]]⟩ : DF).cols.head? = some "Code" ∧
    (∀ r ∈ (⟨["Code", "V"], [[Cell.str "USA", Cell.int 2]]⟩ : DF).rows,
      ¬ (r.getD 0 Cell.null = Cell.null)) ∧
    ("Year" ∈ (⟨["Code", "Year", "V"],
        [[Cell.str "USA", Cell.int 2019, Cell.int 1],
         [Cell.str "USA", Cell.int 2021, Cell.int 2]]⟩ : DF).cols →
      ((⟨["Code", "V"], [[Cell.str "USA", Cell.int 2]]⟩ : DF).rows.map
        (fun r => r.getD 0 Cell.null)).Nodup) ∧
    ((dedupAux 0 [] [[Cell.str "FRA", Cell.int 2020, Cell.int 1],
        [Cell.str "FRA", Cell.int 2020, Cell.int 2]]).map
      (fun r => r.getD 0 Cell.null)).Nodup := by
  have h := normalize_code_invariants
    ⟨["Code", "Year", "V"],
      [[Cell.str "USA", Cell.int 2019, Cell.int 1],
       [Cell.str "USA", Cell.int 2021, Cell.int 2]]⟩
    ⟨["Code", "V"], [[Cell.str "USA", Cell.int 2]]⟩ (by decide)
  exact ⟨h.1, h.2.1, h.2.2.1, h.2.2.2 0
    [[Cell.str "FRA", Cell.int 2020, Cell.int 1],
     [Cell.str "FRA", Cell.int 2020, Cell.int 2]]⟩

theorem findIdx_rename {c : String} :
    ∀ {cols : List String}, ¬ "Code" ∈ cols →
    (cols.map (fun x => if decide (x = c) then "Code" else x)).findIdx?
        (fun x => decide (x = "Code")) = cols.findIdx? (fun x => decide (x = c)) := by
  intro cols
  induction cols with
  | nil => intro _; rfl
  | cons a l ih =>
      intro hnc
      have hna : a ≠ "Code" := fun h => hnc (h ▸ List.mem_cons_self a l)
      have hnl : ¬ "Code" ∈ l := fun h => hnc (List.mem_cons_of_mem a h)
      rw [List.map_cons]
      by_cases hac : a = c
      · have hrn : (if decide (a = c) then "Code" else a) = "Code" := by
          rw [decide_eq_true hac, if_pos rfl]
        rw [hrn, List.findIdx?_cons, List.findIdx?_cons]
        rw [show (decide (("Code" : String) = "Code")) = true from by decide, if_pos rfl]
        rw [decide_eq_true hac, if_pos rfl]
      · have hrn : (if decide (a = c) then "Code" else a) = a := by
          rw [decide_eq_false hac, if_neg Bool.false_ne_true]
        rw [hrn, List.findIdx?_cons, List.findIdx?_cons]
        rw [decide_eq_false hna, decide_eq_false hac]
        rw [if_neg Bool.false_ne_true, if_neg Bool.false_ne_true]
        rw [List.findIdx?_succ, List.findIdx?_succ, ih hnl]

/-! ## C4: code-column inference -/

/-- C4: a raw table whose header contains a column literally named
`iso_code` (in any letter case) — as the first header the code/iso scan
matches — with no nulls in that column, no pre-existing `Code` column and
no `Year` column (so neither the null-drop nor the dedup interferes),
normalizes to a table carrying a `Code` column with values identical to
that column's; and a table with no code-like and no name-like header
yields no indicator table at all (the source is skipped). -/
theorem normalize_code_inference :
    (∀ (df : DF) (c : String) (i : Nat),
      df.cols.find? OkavangoApp.kwCode = some c →
      lowerOf c = "iso_code".toList →
      ¬ "Code" ∈ df.cols →
      ¬ "Year" ∈ df.cols →
      df.cols.findIdx? (fun x => decide (x = c)) = some i →
      (∀ r ∈ df.rows, ¬ (r.getD i Cell.null = Cell.null)) →
      (OkavangoApp.normalize df).bind (fun o => colVals o "Code") = colVals df c) ∧
    (∀ df : DF,
      (∀ x ∈ df.cols, OkavangoApp.kwCode x = false ∧ OkavangoApp.kwName x = false) →
      OkavangoApp.normalize df = none) := by
  constructor
  · intro df c i hfind hlow hnc hny hic hnonull
    have hcC : c ≠ "Code" := by
      intro h
      subst h
      exact absurd hlow (by decide)
    have hgeo : OkavangoApp.findGeoCol df.cols = some c := by
      unfold OkavangoApp.findGeoCol
      rw [hfind]
    have hmembC : memb "Code" df.cols = false :=
      Bool.eq_false_iff.mpr (fun h => hnc (memb_iff.mp h))
    have htc : OkavangoApp.toCodeCol df c = renameCol df c "Code" := by
      unfold OkavangoApp.toCodeCol
      rw [decide_eq_false hcC, if_neg Bool.false_ne_true, hmembC,
        if_neg Bool.false_ne_true]
    have hi1 : (renameCol df c "Code").colIdx "Code" = some i := by
      show (df.cols.map (fun x => if decide (x = c) then "Code" else x)).findIdx?
        (fun x => decide (x = "Code")) = some i
      rw [findIdx_rename hnc, hic]
    have hdna : dropnaOn (renameCol df c "Code") "Code" = renameCol df c "Code" := by
      unfold dropnaOn
      rw [hi1]
      have hfe : (renameCol df c "Code").rows.filter
          (fun r => !(decide (r.getD i Cell.null = Cell.null))) =
          (renameCol df c "Code").rows := by
        apply List.filter_eq_self.mpr
        intro r hr
        rw [decide_eq_false (hnonull r hr)]
        rfl
      show DF.mk (renameCol df c "Code").cols
          ((renameCol df c "Code").rows.filter
            (fun r => !(decide (r.getD i Cell.null = Cell.null)))) =
        renameCol df c "Code"
      rw [hfe]
    have hyear1 : memb "Year" (renameCol df c "Code").cols = false := by
      apply Bool.eq_false_iff.mpr
      intro hm
      obtain ⟨x, hx, he⟩ := List.mem_map.mp (memb_iff.mp hm)
      by_cases hxc : x = c
      · rw [decide_eq_true hxc, if_pos rfl] at he
        exact absurd he (by decide)
      · rw [decide_eq_false hxc, if_neg Bool.false_ne_true] at he
        exact hny (he ▸ hx)
    have hdy : OkavangoApp.dedupYear (renameCol df c "Code") = renameCol df c "Code" := by
      unfold OkavangoApp.dedupYear
      rw [hyear1, if_neg Bool.false_ne_true]
    have hnorm : OkavangoApp.normalize df =
        some (selectCols (renameCol df c "Code")
          (OkavangoApp.keepCols (renameCol df c "Code"))) := by
      unfold OkavangoApp.normalize
      rw [hgeo]
      show some (selectCols (OkavangoApp.dedupYear (dropnaOn (OkavangoApp.toCodeCol df c) "Code"))
        (OkavangoApp.keepCols (OkavangoApp.dedupYear (dropnaOn (OkavangoApp.toCodeCol df c) "Code")))) = _
      rw [htc, hdna, hdy]
    rw [hnorm]
    show colVals (selectCols (renameCol df c "Code")
      (OkavangoApp.keepCols (renameCol df c "Code"))) "Code" = colVals df c
    have hciout : (selectCols (renameCol df c "Code")
        (OkavangoApp.keepCols (renameCol df c "Code"))).colIdx "Code" = some 0 := by
      show (OkavangoApp.keepCols (renameCol df c "Code")).findIdx?
        (fun x => decide (x = "Code")) = some 0
      unfold OkavangoApp.keepCols
      rw [List.findIdx?_cons]
      rw [show (decide (("Code" : String) = "Code")) = true from by decide, if_pos rfl]
    have hvals : (selectCols (renameCol df c "Code")
        (OkavangoApp.keepCols (renameCol df c "Code"))).rows.map
          (fun r => r.getD 0 Cell.null) =
        df.rows.map (fun r => r.getD i Cell.null) := by
      unfold OkavangoApp.keepCols
      exact selectCols_cons_vals (renameCol df c "Code") "Code" _ i hi1
    unfold colVals
    rw [hciout, show df.colIdx c = some i from hic]
    show some ((selectCols (renameCol df c "Code")
        (OkavangoApp.keepCols (renameCol df c "Code"))).rows.map
          (fun r => r.getD 0 Cell.null)) =
      some (df.rows.map (fun r => r.getD i Cell.null))
    rw [hvals]
  · intro df hall
    have hc : df.cols.find? OkavangoApp.kwCode = none :=
      List.find?_eq_none.mpr (fun x hx => by rw [(hall x hx).1]; exact Bool.false_ne_true)
    have hn : df.cols.find? OkavangoApp.kwName = none :=
      List.find?_eq_none.mpr (fun x hx => by rw [(hall x hx).2]; exact Bool.false_ne_true)
    unfold OkavangoApp.normalize OkavangoApp.findGeoCol
    rw [hc, hn]

/-- C4 witness: a table headed `ISO_Code` carries its values into `Code`;
a table with headers `Foo`, `Bar` is skipped. -/
theorem normalize_code_inference_w :
    (OkavangoApp.normalize ⟨["ISO_Code", "V"], [[Cell.str "USA", Cell.int 5]]⟩).bind
        (fun o => colVals o "Code") =
      colVals ⟨["ISO_Code", "V"], [[Cell.str "USA", Cell.int 5]]⟩ "ISO_Code" ∧
    OkavangoApp.normalize ⟨["Foo", "Bar"], [[Cell.int 1, Cell.int 2]]⟩ = none :=
  ⟨normalize_code_inference.1 ⟨["ISO_Code", "V"], [[Cell.str "USA", Cell.int 5]]⟩ "ISO_Code" 0
      (by decide) (by decide) (by decide) (by decide) (by decide) (by decide),
   normalize_code_inference.2 ⟨["Foo", "Bar"], [[Cell.int 1, Cell.int 2]]⟩ (by decide)⟩

/-- The program-level dedup guarantee, independent of the unstable sort's
tie behavior: for every legal `sort_values` output, each row kept by the
keep-first dedup comes from the raw rows and attains the maximum key among
the same-`Code` rows. -/
theorem sortValues_dedup_max {key : List Cell → Int} {ci : Nat}
    {rs sorted : List (List Cell)} (hs : IsSortValuesDesc key rs sorted) :
    ∀ r ∈ dedupAux ci [] sorted,
      r ∈ rs ∧ ∀ q ∈ rs, q.getD ci Cell.null = r.getD ci Cell.null → key q ≤ key r := by
  obtain ⟨hperm, hsort⟩ := hs
  intro r hr
  have hrs : r ∈ sorted := dedupAux_subset ci sorted [] r hr
  refine ⟨hperm.mem_iff.mpr hrs, ?_⟩
  intro q hq hqc
  have hqs : q ∈ sorted := hperm.mem_iff.mp hq
  have hrfil : r ∈ (dedupAux ci [] sorted).filter
      (fun p => decide (p.getD ci Cell.null = r.getD ci Cell.null)) :=
    List.mem_filter.mpr ⟨hr, by simp⟩
  rw [filter_dedupAux] at hrfil
  have hrfil2 : r ∈ ((sorted.filter
      (fun p => decide (p.getD ci Cell.null = r.getD ci Cell.null))).head?).toList := hrfil
  cases hf : sorted.filter (fun p => decide (p.getD ci Cell.null = r.getD ci Cell.null)) with
  | nil => rw [hf] at hrfil2; cases hrfil2
  | cons b rest =>
      rw [hf] at hrfil2
      have hbr : b = r := by
        have h2 : r = b := by simpa using hrfil2
        exact h2.symm
      subst hbr
      have hpair : (sorted.filter
          (fun p => decide (p.getD ci Cell.null = b.getD ci Cell.null))).Pairwise
          (fun x y => key y ≤ key x) :=
        hsort.sublist (List.filter_sublist sorted)
      rw [hf] at hpair
      have hqf : q ∈ sorted.filter (fun p => decide (p.getD ci Cell.null = b.getD ci Cell.null)) :=
        List.mem_filter.mpr ⟨hqs, decide_eq_true hqc⟩
      rw [hf] at hqf
      cases List.mem_cons.mp hqf with
      | inl h => rw [h]
      | inr h => exact List.rel_of_pairwise_cons hpair h

/-- The modelled stable sort is one legal output of the unstable sort. -/
theorem insSortDesc_legal {α : Type} (key : α → Int) (l : List α) :
    IsSortValuesDesc key l (insSortDesc key l) :=
  ⟨(insSortDesc_perm key l).symm, pairwise_insSortDesc key l⟩

/-- C5 (amended): for every raw table with a `Year` column, normalization
keeps, for each `Code`, only a row attaining the maximum `Year` value
(most-recent-wins) — proven for every descending-sorted permutation of
the rows, i.e. every output pandas' unstable default sort may produce;
which row is kept among ties at the same maximum year is not determined
by the code (see the counterexample), so no input-order tie-break is
claimed.  The stable sort used by the executable `normalize` is one legal
output, the same guarantee holds of `latestPerCode` (the embedded
sort-plus-dedup), and the rows `(Code=USA, Year=2019, V=1)` and
`(Code=USA, Year=2021, V=2)` normalize to only the row derived from
`Year = 2021` (the `Year` column itself is then projected away). -/
theorem normalize_most_recent :
    (∀ (key : List Cell → Int) (ci : Nat) (rs sorted : List (List Cell)),
      IsSortValuesDesc key rs sorted →
      ∀ r ∈ dedupAux ci [] sorted,
        r ∈ rs ∧ ∀ q ∈ rs, q.getD ci Cell.null = r.getD ci Cell.null → key q ≤ key r) ∧
    (∀ (yi : Nat) (rs : List (List Cell)),
      IsSortValuesDesc (fun r => cellInt (r.getD yi Cell.null)) rs
        (insSortDesc (fun r => cellInt (r.getD yi Cell.null)) rs)) ∧
    (∀ (ci yi : Nat) (rs : List (List Cell)), ∀ r ∈ latestPerCode ci yi rs,
      r ∈ rs ∧ ∀ q ∈ rs, q.getD ci Cell.null = r.getD ci Cell.null →
        cellInt (q.getD yi Cell.null) ≤ cellInt (r.getD yi Cell.null)) ∧
    OkavangoApp.normalize ⟨["Code", "Year", "V"],
        [[Cell.str "USA", Cell.int 2019, Cell.int 1],
         [Cell.str "USA", Cell.int 2021, Cell.int 2]]⟩ =
      some ⟨["Code", "V"], [[Cell.str "USA", Cell.int 2]]⟩ :=
  ⟨fun _key _ci _rs _sorted hs => sortValues_dedup_max hs,
   fun yi rs => insSortDesc_legal (fun r => cellInt (r.getD yi Cell.null)) rs,
   fun _ci yi rs => sortValues_dedup_max (insSortDesc_legal (fun r => cellInt (r.getD yi Cell.null)) rs),
   by decide⟩

/-- C5 witness: the two-row `USA` example, with the sorted order
`2021, 2019` as the legal sort output, at `Code` index 0 and `Year`
index 1. -/
theorem normalize_most_recent_w :
    (([Cell.str "USA", Cell.int 2021, Cell.int 2] : List Cell) ∈
        [[Cell.str "USA", Cell.int 2019, Cell.int 1],
         [Cell.str "USA", Cell.int 2021, Cell.int 2]] ∧
      ∀ q ∈ [[Cell.str "USA", Cell.int 2019, Cell.int 1],
          [Cell.str "USA", Cell.int 2021, Cell.int 2]],
        q.getD 0 Cell.null =
          ([Cell.str "USA", Cell.int 2021, Cell.int 2] : List Cell).getD 0 Cell.null →
        cellInt (q.getD 1 Cell.null) ≤
          cellInt (([Cell.str "USA", Cell.int 2021, Cell.int 2] : List Cell).getD 1 Cell.null)) ∧
    (([Cell.str "USA", Cell.int 2021, Cell.int 2] : List Cell) ∈
        [[Cell.str "USA", Cell.int 2019, Cell.int 1],
         [Cell.str "USA", Cell.int 2021, Cell.int 2]] ∧
      ∀ q ∈ [[Cell.str "USA", Cell.int 2019, Cell.int 1],
          [Cell.str "USA", Cell.int 2021, Cell.int 2]],
        q.getD 0 Cell.null =
          ([Cell.str "USA", Cell.int 2021, Cell.int 2] : List Cell).getD 0 Cell.null →
        cellInt (q.getD 1 Cell.null) ≤
          cellInt (([Cell.str "USA", Cell.int 2021, Cell.int 2] : List Cell).getD 1 Cell.null)) :=
  ⟨normalize_most_recent.1 (fun r => cellInt (r.getD 1 Cell.null)) 0
      [[Cell.str "USA", Cell.int 2019, Cell.int 1],
       [Cell.str "USA", Cell.int 2021, Cell.int 2]]
      [[Cell.str "USA", Cell.int 2021, Cell.int 2],
       [Cell.str "USA", Cell.int 2019, Cell.int 1]]
      ⟨List.Perm.swap _ _ _, by decide⟩
      [Cell.str "USA", Cell.int 2021, Cell.int 2] (by decide),
   normalize_most_recent.2.2.1 0 1
      [[Cell.str "USA", Cell.int 2019, Cell.int 1],
       [Cell.str "USA", Cell.int 2021, Cell.int 2]]
      [Cell.str "USA", Cell.int 2021, Cell.int 2] (by decide)⟩
